import Mathlib

/-!
Verification of the mpags-cipher program against its specification.

The repository snapshot contains the program driver (src/src/mpags-cipher.cpp)
and CipherType.hpp.  The driver is embedded below verbatim in structure: the
cipher construction loop (lines 107-123), the decrypt-order reversal
(lines 125-128), the per-stage loop with its chunked execution branch
(lines 131-174), the chunk arithmetic (lines 135-150) and the future-waiting
loop (lines 157-163).  The concrete cipher classes (CaesarCipher,
VigenereCipher, PlayfairCipher, CipherFactory) are not part of the snapshot;
their transforms and key validation are modelled from the specification
(sections 4.2, 4.3, 4.4 and 7) and are marked as such in their doc comments.

Text is modelled as a list of alphabet positions: a normalized character
A..Z is its position 0..25 in the alphabet (the spec's letters-only reading
of the alphabet, section 4.2).
-/

/-- Cipher mode, mirroring CipherMode.hpp: the two directions a cipher can run. -/
inductive CipherMode where
  | Encrypt
  | Decrypt
deriving DecidableEq

/-- Cipher type, mirroring CipherType.hpp lines 211-215. -/
inductive CipherType where
  | Caesar
  | Playfair
  | Vigenere
deriving DecidableEq

/-- Normalized text characters: alphabet positions 0..25 for A..Z. -/
abbrev Letter := Fin 26

/-- Modelled from the spec: the Caesar per-character map of section 4.2, with
CaesarCipher not in the snapshot.  Encrypting maps alphabet position p to
(p + k) mod 26, decrypting maps p to (p - k + 26) mod 26. -/
def caesarShift (m : CipherMode) (k : Fin 26) (c : Letter) : Letter :=
  match m with
  | CipherMode.Encrypt => ⟨(c.val + k.val) % 26, Nat.mod_lt _ (by omega)⟩
  | CipherMode.Decrypt => ⟨(c.val + 26 - k.val) % 26, Nat.mod_lt _ (by omega)⟩

/-- Modelled from the spec: CaesarCipher::applyCipher, section 4.2.  The shift
is applied to every character independently. -/
def caesarTransform (k : Fin 26) (m : CipherMode) (t : List Letter) : List Letter :=
  t.map (caesarShift m k)

/-- Modelled from the spec: VigenereCipher::applyCipher, section 4.3.  The
character at absolute position i is shifted by the alphabet position of
key[i mod keyLength].  A valid key is nonempty, so the default value of getD
is never read for a constructed cipher. -/
def vigenereGo (key : List (Fin 26)) (m : CipherMode) : Nat → List Letter → List Letter
  | _, [] => []
  | i, c :: cs =>
    caesarShift m (key.getD (i % key.length) 0) c :: vigenereGo key m (i + 1) cs

/-- Modelled from the spec: the Playfair 25-letter alphabet (section 4.4).  The
letter J (position 9) is merged into I (position 8); positions after J shift
down by one. -/
def toGrid (c : Letter) : Fin 25 :=
  if h : c.val ≤ 8 then ⟨c.val, by omega⟩
  else if h2 : c.val = 9 then ⟨8, by omega⟩
  else ⟨c.val - 1, by have := c.isLt; omega⟩

/-- Modelled from the spec: the inverse embedding of the 25-letter Playfair
alphabet back into A..Z, skipping J. -/
def fromGrid (g : Fin 25) : Letter :=
  if h : g.val ≤ 8 then ⟨g.val, by omega⟩
  else ⟨g.val + 1, by have := g.isLt; omega⟩

/-- Modelled from the spec: the Playfair filler letter of section 4.4,
conventionally X (grid position 22), or Q (grid position 15) when the letter
needing a filler is X itself. -/
def pfFiller (a : Fin 25) : Fin 25 :=
  if a = ⟨22, by omega⟩ then ⟨15, by omega⟩ else ⟨22, by omega⟩

/-- Modelled from the spec: Playfair digraph preprocessing, section 4.4.  The
text is split into pairs; a pair of two identical letters gets a filler
inserted between them, and an odd-length tail gets a filler appended. -/
def pfPrep : List (Fin 25) → List (Fin 25)
  | [] => []
  | [a] => [a, pfFiller a]
  | a :: b :: rest =>
    if a = b then a :: pfFiller a :: pfPrep (b :: rest)
    else a :: b :: pfPrep rest

/-- Digraph normal form: even length and no digraph made of two equal letters.
Such a text is left unchanged by pfPrep. -/
def isDigraphNormal : List (Fin 25) → Bool
  | [] => true
  | [_] => false
  | a :: b :: rest => if a = b then false else isDigraphNormal rest

/-- Modelled from the spec: first-occurrence deduplication of the key letters
(section 4.4), realized as last-occurrence dedup of the reversed list. -/
def pfKeyLetters (key : List Letter) : List (Fin 25) :=
  ((key.map toGrid).reverse.dedup).reverse

/-- Modelled from the spec: the 5x5 Playfair grid as a flat 25-element list,
section 4.4: deduplicated key letters followed by the remaining alphabet
letters in order. -/
def pfGrid (key : List Letter) : List (Fin 25) :=
  pfKeyLetters key ++ (List.finRange 25).filter (fun g => decide (g ∉ pfKeyLetters key))

/-- Position of a letter in the grid (row = position / 5, column =
position % 5). -/
def pfPos (grid : List (Fin 25)) (a : Fin 25) : Nat := grid.indexOf a

/-- Letter stored at a grid position. -/
def pfAt (grid : List (Fin 25)) (n : Nat) : Fin 25 := grid.getD n ⟨0, by omega⟩

/-- Modelled from the spec: the digraph position rules of section 4.4 on raw
grid positions.  d is the shift amount: 1 encrypting (right/down), 4
decrypting (left/up, as -1 mod 5).  Same row shifts both columns by d, same
column shifts both rows by d, otherwise each letter takes the column of the
other at its own row. -/
def pfStep (d p q : Nat) : Nat × Nat :=
  let r1 := p / 5
  let c1 := p % 5
  let r2 := q / 5
  let c2 := q % 5
  if r1 = r2 then (r1 * 5 + (c1 + d) % 5, r2 * 5 + (c2 + d) % 5)
  else if c1 = c2 then ((r1 + d) % 5 * 5 + c1, (r2 + d) % 5 * 5 + c2)
  else (r1 * 5 + c2, r2 * 5 + c1)

/-- Shift amount for the Playfair row/column rules: one step right/down when
encrypting, one step left/up (4 mod 5) when decrypting. -/
def pfShiftAmount : CipherMode → Nat
  | CipherMode.Encrypt => 1
  | CipherMode.Decrypt => 4

/-- Modelled from the spec: the transform of one Playfair digraph,
section 4.4. -/
def pfPair (grid : List (Fin 25)) (m : CipherMode) (a b : Fin 25) : Fin 25 × Fin 25 :=
  let s := pfStep (pfShiftAmount m) (pfPos grid a) (pfPos grid b)
  (pfAt grid s.1, pfAt grid s.2)

/-- Modelled from the spec: application of the digraph transform to a text
pair by pair, section 4.4. -/
def pfApplyPairs (grid : List (Fin 25)) (m : CipherMode) : List (Fin 25) → List (Fin 25)
  | a :: b :: rest => (pfPair grid m a b).1 :: (pfPair grid m a b).2 :: pfApplyPairs grid m rest
  | l => l

/-- Modelled from the spec: PlayfairCipher::applyCipher, section 4.4.  The
text is moved into the 25-letter alphabet, preprocessed into digraphs,
transformed digraph by digraph and moved back. -/
def playfairTransform (key : List Letter) (m : CipherMode) (t : List Letter) : List Letter :=
  (pfApplyPairs (pfGrid key) m (pfPrep (t.map toGrid))).map fromGrid

/-- Raw key material handed to the factory, one constructor per cipher kind:
the Caesar shift as a number, the Vigenere and Playfair keys as letter
sequences. -/
inductive RawKey where
  | caesarK (shift : Nat)
  | vigenereK (keyLetters : List Letter)
  | playfairK (keyLetters : List Letter)

/-- A constructed cipher holding its validated key material. -/
inductive CipherInstance where
  | caesar (shift : Fin 26)
  | vigenere (key : List Letter)
  | playfair (key : List Letter)
deriving DecidableEq

/-- The polymorphic Cipher::applyCipher call of the source, dispatching to the
spec-modelled transform of the instance's kind. -/
def applyCipherInstance : CipherInstance → CipherMode → List Letter → List Letter
  | CipherInstance.caesar k, m, t => caesarTransform k m t
  | CipherInstance.vigenere key, m, t => vigenereGo key m 0 t
  | CipherInstance.playfair key, m, t => playfairTransform key m t

/-- Modelled from the spec: CipherFactory::makeCipher with the key validation
of sections 4.2-4.4 and 7, with the factory not in the snapshot.  An
out-of-range Caesar shift and an empty Vigenere key are InvalidKey; an empty
Playfair key is valid (the grid falls back to the plain alphabet); a key of
the wrong kind for the requested cipher cannot be normalized and is
InvalidKey as well. -/
def makeCipher : CipherType → RawKey → Except String CipherInstance
  | CipherType.Caesar, RawKey.caesarK n =>
    if h : n < 26 then Except.ok (CipherInstance.caesar ⟨n, h⟩)
    else Except.error "InvalidKey: out-of-range Caesar shift"
  | CipherType.Vigenere, RawKey.vigenereK ks =>
    if ks.isEmpty then Except.error "InvalidKey: empty Vigenere key"
    else Except.ok (CipherInstance.vigenere ks)
  | CipherType.Playfair, RawKey.playfairK ks => Except.ok (CipherInstance.playfair ks)
  | _, _ => Except.error "InvalidKey: key does not match cipher type"

/-- The cipher construction loop of main, src lines 107-123: ciphers are built
in order and the first InvalidKey aborts the run with an error before any
transform happens. -/
def buildCiphers : List CipherType → List RawKey → Except String (List CipherInstance)
  | [], _ => Except.ok []
  | _ :: _, [] => Except.error "InvalidKey: missing key"
  | ty :: tys, k :: ks =>
    match makeCipher ty k with
    | Except.error e => Except.error e
    | Except.ok c =>
      match buildCiphers tys ks with
      | Except.error e => Except.error e
      | Except.ok rest => Except.ok (c :: rest)

/-- The fixed worker count of src line 135. -/
def numThreads : Nat := 4

/-- Chunk start offset, src line 142: i * chunkSize with
chunkSize = length / numThreads (src line 137). -/
def chunkStart (len i : Nat) : Nat := i * (len / numThreads)

/-- Chunk end offset, src lines 143-144: the last chunk ends at the text
length, every other chunk at (i + 1) * chunkSize. -/
def chunkEnd (len i : Nat) : Nat :=
  if i = numThreads - 1 then len else (i + 1) * (len / numThreads)

/-- One chunk, src lines 149-150: cipherText.substr(start, end - start). -/
def chunk (t : List Letter) (i : Nat) : List Letter :=
  (t.drop (chunkStart t.length i)).take (chunkEnd t.length i - chunkStart t.length i)

/-- The chunk list produced by the loop at src lines 141-156, in task index
order. -/
def chunks (t : List Letter) : List (List Letter) :=
  (List.range numThreads).map (chunk t)

/-- The settings fields of ProgramSettings consumed by the cipher pipeline:
kinds and raw keys in pipeline order plus the run mode. -/
structure ProgramSettings where
  cipherType : List CipherType
  cipherKey : List RawKey
  cipherMode : CipherMode

/-- The per-stage loop of main, src lines 131-174, embedded as written: for
each constructed cipher (in the already ordered list), if Caesar occurs
anywhere in settings.cipherType the stage output is the concatenation of the
chunk futures, each applying ciphers.front() (src line 152) to its chunk;
otherwise the stage applies the loop's own cipher sequentially
(src line 172). -/
def runCiphers (ciphers : List CipherInstance) (types : List CipherType) (mode : CipherMode)
    (text0 : List Letter) : List Letter :=
  ciphers.foldl
    (fun cipherText cipher =>
      if CipherType.Caesar ∈ types then
        ((chunks cipherText).map
          (fun c => applyCipherInstance (ciphers.headD (CipherInstance.caesar 0)) mode c)).flatten
      else applyCipherInstance cipher mode cipherText)
    text0

/-- The cipher phase of main on an already normalized input text: build the
ciphers (src lines 107-123), reverse them when decrypting (src lines
125-128), then run the stage loop (src lines 131-174).  A construction
failure yields the error exit of main, producing no output text. -/
def runProgram (settings : ProgramSettings) (inputText : List Letter) :
    Except String (List Letter) :=
  match buildCiphers settings.cipherType settings.cipherKey with
  | Except.error e => Except.error e
  | Except.ok ciphers =>
    match settings.cipherMode with
    | CipherMode.Decrypt =>
      Except.ok (runCiphers ciphers.reverse settings.cipherType settings.cipherMode inputText)
    | CipherMode.Encrypt =>
      Except.ok (runCiphers ciphers settings.cipherType settings.cipherMode inputText)

/-- Supported alphabet per cipher kind: every normalized letter for Caesar and
Vigenere; for Playfair the 25-letter alphabet, which excludes J
(position 9). -/
def supportedText : CipherType → List Letter → Bool
  | CipherType.Playfair, t => t.all (fun c => decide (c.val ≠ 9))
  | _, _ => true

/-- Outcome vocabulary for the future-waiting loop: the loop either observes
every task complete or would have to surface a timeout error. -/
inductive WaitOutcome where
  | completed
  | timedOut
deriving DecidableEq

/-- The future-waiting loop of src lines 157-163, embedded over an abstract
task readiness: readyAfterPolls = some n means wait_for reports ready after
n re-polls, none means the task never becomes ready.  The loop body is
status = wait_for(1s); while (status != ready) status = wait_for(2s); its
only exit is the ready status, so a never-ready task re-polls forever
(modelled as none) and no code path produces WaitOutcome.timedOut: the
program defines no timeout error at all. -/
def waitChunkTasks (readyAfterPolls : Option Nat) : Option WaitOutcome :=
  match readyAfterPolls with
  | some _ => some WaitOutcome.completed
  | none => none

/-- Chunk task results tagged with their chunk index, listed in an arbitrary
completion order: the value of future i is the stage transform of chunk i
regardless of when the task finishes. -/
def completionResults (cipher : CipherInstance) (mode : CipherMode) (text : List Letter)
    (order : List Nat) : List (Nat × List Letter) :=
  order.map (fun i => (i, applyCipherInstance cipher mode (chunk text i)))

/-- The gather loop of src lines 165-169: results are concatenated by chunk
index (the futures vector is traversed in creation order), not by completion
order. -/
def gatherByIndex (results : List (Nat × List Letter)) : List Letter :=
  ((List.range numThreads).map (fun i => (results.lookup i).getD [])).flatten

/-! ## Helper lemmas -/

/-- Decrypting inverts encrypting for a single Caesar-shifted character. -/
theorem caesarShift_inv : ∀ (k : Fin 26) (c : Letter),
    caesarShift CipherMode.Decrypt k (caesarShift CipherMode.Encrypt k c) = c := by decide

/-- Taking m elements after n and then dropping n + m reassembles the drop. -/
theorem take_drop_chain (l : List Letter) (n m : Nat) :
    (l.drop n).take m ++ l.drop (n + m) = l.drop n := by
  have h := List.take_append_drop m (l.drop n)
  rwa [List.drop_drop] at h

/-- The four chunks of the parallel strategy concatenate back to the text. -/
theorem chunks_flatten (t : List Letter) : (chunks t).flatten = t := by
  show chunk t 0 ++ (chunk t 1 ++ (chunk t 2 ++ (chunk t 3 ++ []))) = t
  simp only [chunk, chunkStart, chunkEnd, numThreads, List.append_nil]
  norm_num
  have e3 : (t.drop (3 * (t.length / 4))).take (t.length - 3 * (t.length / 4))
      = t.drop (3 * (t.length / 4)) := by
    rw [← List.length_drop]
    exact List.take_length _
  rw [e3]
  have h2 : (t.drop (2 * (t.length / 4))).take (3 * (t.length / 4) - 2 * (t.length / 4))
        ++ t.drop (3 * (t.length / 4)) = t.drop (2 * (t.length / 4)) := by
    have : 3 * (t.length / 4) - 2 * (t.length / 4) = t.length / 4 := by omega
    rw [this]
    have : 3 * (t.length / 4) = 2 * (t.length / 4) + t.length / 4 := by omega
    rw [this]
    exact take_drop_chain t _ _
  have h1 : (t.drop (t.length / 4)).take (2 * (t.length / 4) - t.length / 4)
        ++ t.drop (2 * (t.length / 4)) = t.drop (t.length / 4) := by
    have : 2 * (t.length / 4) - t.length / 4 = t.length / 4 := by omega
    rw [this]
    have : 2 * (t.length / 4) = t.length / 4 + t.length / 4 := by omega
    rw [this]
    exact take_drop_chain t _ _
  have h0 : t.take (t.length / 4) ++ t.drop (t.length / 4) = t := List.take_append_drop _ t
  calc t.take (t.length / 4)
      ++ ((t.drop (t.length / 4)).take (2 * (t.length / 4) - t.length / 4)
      ++ ((t.drop (2 * (t.length / 4))).take (3 * (t.length / 4) - 2 * (t.length / 4))
      ++ t.drop (3 * (t.length / 4))))
      = t.take (t.length / 4)
      ++ ((t.drop (t.length / 4)).take (2 * (t.length / 4) - t.length / 4)
      ++ t.drop (2 * (t.length / 4))) := by rw [h2]
    _ = t.take (t.length / 4) ++ t.drop (t.length / 4) := by rw [h1]
    _ = t := h0

/-! ## Claims about the chunking strategy -/

/-- Claim C1: for every Caesar key, mode and text (any length, including 0, 1,
3 and 10000), applying the Caesar transform chunk by chunk over the 4-chunk
partition of the code and concatenating equals applying it to the whole text
at once. -/
theorem c1_caesar_parallel_eq_sequential (k : Fin 26) (m : CipherMode) (t : List Letter) :
    ((chunks t).map (caesarTransform k m)).flatten = caesarTransform k m t := by
  have h : List.map (caesarTransform k m) (chunks t)
      = List.map (List.map (caesarShift m k)) (chunks t) := rfl
  rw [h, ← List.map_flatten, chunks_flatten, caesarTransform]

set_option maxHeartbeats 1000000 in
/-- Claim C8: the partition is four chunks whose lengths are the floor of
length / 4 except the last, which also absorbs the remainder, and whose
concatenation is exactly the input text. -/
theorem c8_chunk_partition_exact (t : List Letter) :
    (chunks t).map List.length =
      [t.length / 4, t.length / 4, t.length / 4, t.length / 4 + t.length % 4]
    ∧ (chunks t).flatten = t := by
  refine ⟨?_, chunks_flatten t⟩
  have l0 : (chunk t 0).length = t.length / 4 := by
    simp only [chunk, chunkStart, chunkEnd, numThreads, List.length_take, List.length_drop]
    norm_num
    omega
  have l1 : (chunk t 1).length = t.length / 4 := by
    simp only [chunk, chunkStart, chunkEnd, numThreads, List.length_take, List.length_drop]
    norm_num
    omega
  have l2 : (chunk t 2).length = t.length / 4 := by
    simp only [chunk, chunkStart, chunkEnd, numThreads, List.length_take, List.length_drop]
    norm_num
    omega
  have l3 : (chunk t 3).length = t.length / 4 + t.length % 4 := by
    simp only [chunk, chunkStart, chunkEnd, numThreads, List.length_take, List.length_drop]
    norm_num
    omega
  show [(chunk t 0).length, (chunk t 1).length, (chunk t 2).length, (chunk t 3).length] = _
  rw [l0, l1, l2, l3]

set_option maxHeartbeats 1000000 in
/-- Claim C10: every chunk's start and end offsets are in range for every text
length, and a text shorter than the worker count yields three empty leading
chunks and the whole text as the last chunk. -/
theorem c10_chunk_bounds_safe (t : List Letter) :
    (∀ i, i < numThreads →
      chunkStart t.length i ≤ chunkEnd t.length i ∧ chunkEnd t.length i ≤ t.length)
    ∧ (t.length < numThreads → chunks t = [[], [], [], t]) := by
  constructor
  · intro i hi
    simp only [numThreads] at hi
    interval_cases i <;> simp [chunkStart, chunkEnd, numThreads] <;> omega
  · intro h
    simp only [numThreads] at h
    have hcs : t.length / 4 = 0 := Nat.div_eq_of_lt (by omega)
    show [chunk t 0, chunk t 1, chunk t 2, chunk t 3] = _
    simp [chunk, chunkStart, chunkEnd, numThreads, hcs]

/-- Claim C10 witness: the bounds and the short-text shape at the concrete
two-letter text AB. -/
theorem c10_chunk_bounds_safe_witness :
    (chunkStart (List.length ([0, 1] : List Letter)) 1
        ≤ chunkEnd (List.length ([0, 1] : List Letter)) 1
      ∧ chunkEnd (List.length ([0, 1] : List Letter)) 1 ≤ List.length ([0, 1] : List Letter))
    ∧ chunks [0, 1] = [[], [], [], [0, 1]] :=
  ⟨(c10_chunk_bounds_safe [0, 1]).1 1 (by decide),
   (c10_chunk_bounds_safe [0, 1]).2 (by decide)⟩

/-! ## Claims about the stage loop of main -/

/-- Claim C2 (code bug): with pipeline [Caesar(1), Vigenere(BC)] encrypting AA,
the Vigenere stage is not executed by a direct sequential call to its own
transform: because Caesar occurs in settings.cipherType, every stage takes the
chunked branch applying ciphers.front(), so the program yields CC, while the
claimed per-stage execution (Caesar(1) then Vigenere(BC)) yields CD. -/
theorem c2_mixed_pipeline_runs_parallel_path :
    runProgram
      ⟨[CipherType.Caesar, CipherType.Vigenere],
       [RawKey.caesarK 1, RawKey.vigenereK [1, 2]], CipherMode.Encrypt⟩ [0, 0]
      = Except.ok [2, 2]
    ∧ applyCipherInstance (CipherInstance.vigenere [1, 2]) CipherMode.Encrypt
        (applyCipherInstance (CipherInstance.caesar 1) CipherMode.Encrypt [0, 0]) = [2, 3] := by
  constructor <;> rfl

/-- Claim C3 (code bug): with pipeline [Caesar(1), Caesar(2)] encrypting A, the
second stage's chunk tasks do not apply that stage's own cipher: they apply
ciphers.front() (shift 1 again, src line 152), so the program yields C,
while applying each stage's own transform in order yields D. -/
theorem c3_chunk_tasks_use_front_cipher :
    runProgram
      ⟨[CipherType.Caesar, CipherType.Caesar],
       [RawKey.caesarK 1, RawKey.caesarK 2], CipherMode.Encrypt⟩ [0]
      = Except.ok [2]
    ∧ caesarTransform 2 CipherMode.Encrypt (caesarTransform 1 CipherMode.Encrypt [0]) = [3] := by
  constructor <;> rfl

/-- Claim C4 (code bug): with pipeline [Caesar(2), Caesar(3)] decrypting A, the
ciphers are reversed (src lines 125-128) but the stage loop then applies the
front of the reversed list (shift 3) at every stage, yielding U, while
applying the transforms in exactly reversed list order (shift 3 then shift 2)
yields V. -/
theorem c4_decrypt_does_not_apply_reversed_order :
    runProgram
      ⟨[CipherType.Caesar, CipherType.Caesar],
       [RawKey.caesarK 2, RawKey.caesarK 3], CipherMode.Decrypt⟩ [0]
      = Except.ok [20]
    ∧ applyCipherInstance (CipherInstance.caesar 2) CipherMode.Decrypt
        (applyCipherInstance (CipherInstance.caesar 3) CipherMode.Decrypt [0]) = [21] := by
  constructor <;> rfl

/-- Claim C7 (code bug): the waiting loop of src lines 158-163 exits only when
a future reports ready; a never-completing task (readiness none) is re-polled
forever, and no execution ever produces the timeout outcome the spec
requires. -/
theorem c7_wait_loop_never_times_out :
    waitChunkTasks none = none
    ∧ ∀ r : Option Nat,
        waitChunkTasks r = none ∨ waitChunkTasks r = some WaitOutcome.completed := by
  refine ⟨rfl, ?_⟩
  intro r
  cases r with
  | none => exact Or.inl rfl
  | some n => exact Or.inr rfl

/-! ## Claims about gathering and construction errors -/

/-- Looking up a chunk index in the completion-ordered result list returns
that chunk's task value whenever the index completed. -/
theorem lookup_completionResults (cipher : CipherInstance) (mode : CipherMode)
    (text : List Letter) :
    ∀ (order : List Nat) (i : Nat), i ∈ order →
      (completionResults cipher mode text order).lookup i
        = some (applyCipherInstance cipher mode (chunk text i)) := by
  intro order
  induction order with
  | nil => intro i h; cases h
  | cons j os ih =>
    intro i h
    by_cases hij : i = j
    · subst hij
      simp [completionResults, List.lookup]
    · have hbeq : (i == j) = false := by simp [hij]
      have hm : i ∈ os := by
        rcases List.mem_cons.mp h with h1 | h2
        · exact absurd h1 hij
        · exact h2
      simpa [completionResults, List.lookup, hbeq] using ih i hm

/-- Claim C9: whatever order the chunk tasks complete in (any order covering
all four indices), gathering by chunk index reconstructs exactly the
index-ordered concatenation of the chunk transforms; the stage output is
therefore the same value on every run of a fixed input, key and mode. -/
theorem c9_gather_by_index_is_deterministic (cipher : CipherInstance) (mode : CipherMode)
    (text : List Letter) (order : List Nat)
    (h : ∀ i : Fin numThreads, i.val ∈ order) :
    gatherByIndex (completionResults cipher mode text order)
      = ((chunks text).map (applyCipherInstance cipher mode)).flatten := by
  unfold gatherByIndex chunks
  rw [List.map_map]
  congr 1
  apply List.map_congr_left
  intro i hi
  have hlt : i < numThreads := List.mem_range.mp hi
  rw [lookup_completionResults cipher mode text order i (h ⟨i, hlt⟩)]
  rfl

/-- Claim C9 witness: a concrete out-of-order completion schedule gathers to
the index-ordered stage output. -/
theorem c9_gather_by_index_witness :
    gatherByIndex
      (completionResults (CipherInstance.caesar 5) CipherMode.Encrypt [0, 1, 2, 3, 4] [3, 1, 0, 2])
      = ((chunks [0, 1, 2, 3, 4]).map
          (applyCipherInstance (CipherInstance.caesar 5) CipherMode.Encrypt)).flatten :=
  c9_gather_by_index_is_deterministic (CipherInstance.caesar 5) CipherMode.Encrypt
    [0, 1, 2, 3, 4] [3, 1, 0, 2] (by decide)

/-- A construction failure for any pipeline entry makes the construction loop
abort with that or an earlier error. -/
theorem buildCiphers_error_of_invalid :
    ∀ (tys : List CipherType) (ks : List RawKey) (p : CipherType × RawKey),
      p ∈ tys.zip ks → (∃ e, makeCipher p.1 p.2 = Except.error e) →
      ∃ e, buildCiphers tys ks = Except.error e := by
  intro tys
  induction tys with
  | nil => intro ks p hp _; simp [List.zip] at hp
  | cons ty tys ih =>
    intro ks p hp he
    cases ks with
    | nil => exact ⟨"InvalidKey: missing key", rfl⟩
    | cons k ks =>
      rcases List.mem_cons.mp hp with h1 | h2
      · subst h1
        obtain ⟨e, he⟩ := he
        exact ⟨e, by simp [buildCiphers, he]⟩
      · obtain ⟨e2, he2⟩ := ih ks p h2 he
        cases hmk : makeCipher ty k with
        | error e => exact ⟨e, by simp [buildCiphers, hmk]⟩
        | ok c => exact ⟨e2, by simp [buildCiphers, hmk, he2]⟩

/-- Claim C6: an invalid key is rejected by makeCipher at construction time
(the transforms themselves are total functions and raise nothing), and any
construction failure makes the whole run return an error carrying no output
text, so no cipher transform of the pipeline is applied. -/
theorem c6_invalid_key_aborts_run (settings : ProgramSettings) (inputText : List Letter)
    (h : ∃ p ∈ settings.cipherType.zip settings.cipherKey,
        ∃ e, makeCipher p.1 p.2 = Except.error e) :
    ∃ e, runProgram settings inputText = Except.error e := by
  obtain ⟨p, hp, he⟩ := h
  obtain ⟨e, hb⟩ := buildCiphers_error_of_invalid settings.cipherType settings.cipherKey p hp he
  exact ⟨e, by simp [runProgram, hb]⟩

/-- Claim C6 witness: the empty Vigenere key aborts the run with an error. -/
theorem c6_invalid_key_aborts_run_witness :
    ∃ e, runProgram ⟨[CipherType.Vigenere], [RawKey.vigenereK []], CipherMode.Encrypt⟩ []
      = Except.error e :=
  c6_invalid_key_aborts_run
    ⟨[CipherType.Vigenere], [RawKey.vigenereK []], CipherMode.Encrypt⟩ []
    ⟨(CipherType.Vigenere, RawKey.vigenereK []), List.mem_cons_self _ _, ⟨_, rfl⟩⟩

/-! ## Round-trip lemmas for the three ciphers -/

/-- Re-embedding the 25-letter alphabet into A..Z and back is the identity. -/
theorem toGrid_fromGrid : ∀ g : Fin 25, toGrid (fromGrid g) = g := by decide

/-- Merging into the 25-letter alphabet and back is the identity away from
J. -/
theorem fromGrid_toGrid : ∀ c : Letter, c.val ≠ 9 → fromGrid (toGrid c) = c := by decide

/-- The Playfair position rules at distinct positions: the encrypting step
stays in range, sends distinct positions to distinct positions, and the
decrypting step undoes it. -/
theorem pfStep_spec : ∀ p q : Fin 25, p ≠ q →
    (pfStep 1 p.val q.val).1 < 25 ∧ (pfStep 1 p.val q.val).2 < 25 ∧
    (pfStep 1 p.val q.val).1 ≠ (pfStep 1 p.val q.val).2 ∧
    pfStep 4 (pfStep 1 p.val q.val).1 (pfStep 1 p.val q.val).2 = (p.val, q.val) := by decide

/-- The deduplicated key letters contain no duplicates. -/
theorem pfKeyLetters_nodup (key : List Letter) : (pfKeyLetters key).Nodup := by
  simp only [pfKeyLetters, List.nodup_reverse]
  exact List.nodup_dedup _

/-- The grid derived from any key has no duplicate letters. -/
theorem pfGrid_nodup (key : List Letter) : (pfGrid key).Nodup := by
  apply List.Nodup.append (pfKeyLetters_nodup key)
    ((List.nodup_finRange 25).filter _)
  intro x hx hx2
  have hp := List.of_mem_filter hx2
  simp only [decide_eq_true_eq] at hp
  exact hp hx

/-- Every letter of the 25-letter alphabet occurs in the grid. -/
theorem pfGrid_mem (key : List Letter) (x : Fin 25) : x ∈ pfGrid key := by
  by_cases h : x ∈ pfKeyLetters key
  · exact List.mem_append_left _ h
  · refine List.mem_append_right _ (List.mem_filter.mpr ⟨List.mem_finRange x, ?_⟩)
    simpa using h

/-- The grid has exactly 25 cells. -/
theorem pfGrid_length (key : List Letter) : (pfGrid key).length = 25 := by
  have hperm : (pfGrid key).Perm (List.finRange 25) :=
    (List.perm_ext_iff_of_nodup (pfGrid_nodup key) (List.nodup_finRange 25)).mpr
      (fun a => ⟨fun _ => List.mem_finRange a, fun _ => pfGrid_mem key a⟩)
  simpa using hperm.length_eq

/-- A letter's grid position is in range when the grid is complete. -/
theorem pfPos_lt {grid : List (Fin 25)} (hmem : ∀ x, x ∈ grid) (hlen : grid.length = 25)
    (a : Fin 25) : pfPos grid a < 25 := by
  have h := List.indexOf_lt_length.mpr (hmem a)
  rw [hlen] at h
  exact h

/-- Reading the grid at a letter's position gives the letter back. -/
theorem pfAt_pfPos {grid : List (Fin 25)} (hmem : ∀ x, x ∈ grid) (a : Fin 25) :
    pfAt grid (pfPos grid a) = a := by
  have hlt : List.indexOf a grid < grid.length := List.indexOf_lt_length.mpr (hmem a)
  rw [pfAt, pfPos, List.getD_eq_getElem?_getD, List.getElem?_eq_getElem hlt, Option.getD_some]
  exact List.getElem_indexOf hlt

/-- The position of the letter stored at an in-range grid cell is that cell. -/
theorem pfPos_pfAt {grid : List (Fin 25)} (hnd : grid.Nodup) (hlen : grid.length = 25)
    {n : Nat} (hn : n < 25) : pfPos grid (pfAt grid n) = n := by
  have hn2 : n < grid.length := by omega
  rw [pfAt, List.getD_eq_getElem?_getD, List.getElem?_eq_getElem hn2, Option.getD_some, pfPos]
  exact List.indexOf_getElem hnd n hn2

/-- Decrypting a digraph undoes encrypting it, and an encrypted digraph keeps
its two letters distinct, over any complete duplicate-free grid. -/
theorem pfPair_inv {grid : List (Fin 25)} (hnd : grid.Nodup) (hlen : grid.length = 25)
    (hmem : ∀ x, x ∈ grid) {a b : Fin 25} (hab : a ≠ b) :
    pfPair grid CipherMode.Decrypt
        (pfPair grid CipherMode.Encrypt a b).1 (pfPair grid CipherMode.Encrypt a b).2 = (a, b)
    ∧ (pfPair grid CipherMode.Encrypt a b).1 ≠ (pfPair grid CipherMode.Encrypt a b).2 := by
  have hpa : pfPos grid a < 25 := pfPos_lt hmem hlen a
  have hpb : pfPos grid b < 25 := pfPos_lt hmem hlen b
  have hne : pfPos grid a ≠ pfPos grid b := by
    intro h
    apply hab
    have h2 := congrArg (pfAt grid) h
    rwa [pfAt_pfPos hmem a, pfAt_pfPos hmem b] at h2
  obtain ⟨h1, h2, h3, h4⟩ :=
    pfStep_spec ⟨pfPos grid a, hpa⟩ ⟨pfPos grid b, hpb⟩ (by simpa [Fin.ext_iff] using hne)
  simp only [pfPair, pfShiftAmount] at *
  constructor
  · rw [pfPos_pfAt hnd hlen h1, pfPos_pfAt hnd hlen h2, h4]
    simp only [Prod.mk.injEq]
    exact ⟨pfAt_pfPos hmem a, pfAt_pfPos hmem b⟩
  · intro h
    apply h3
    have h5 := congrArg (pfPos grid) h
    rwa [pfPos_pfAt hnd hlen h1, pfPos_pfAt hnd hlen h2] at h5

/-- A digraph-normal text is left unchanged by the preprocessing pass. -/
theorem pfPrep_fixed : ∀ u : List (Fin 25), isDigraphNormal u = true → pfPrep u = u
  | [], _ => rfl
  | [_], h => by simp [isDigraphNormal] at h
  | a :: b :: rest, h => by
    rw [isDigraphNormal] at h
    split at h
    · exact absurd h (by simp)
    · rw [pfPrep]
      split
      · simp_all
      · rw [pfPrep_fixed rest h]

/-- Encrypting a digraph-normal text pair by pair keeps it digraph normal. -/
theorem pfApplyPairs_normal {grid : List (Fin 25)} (hnd : grid.Nodup)
    (hlen : grid.length = 25) (hmem : ∀ x, x ∈ grid) :
    ∀ u : List (Fin 25), isDigraphNormal u = true →
      isDigraphNormal (pfApplyPairs grid CipherMode.Encrypt u) = true
  | [], _ => rfl
  | [_], h => by simp [isDigraphNormal] at h
  | a :: b :: rest, h => by
    rw [isDigraphNormal] at h
    split at h
    · exact absurd h (by simp)
    · rename_i hab
      rw [pfApplyPairs, isDigraphNormal]
      rw [if_neg (pfPair_inv hnd hlen hmem hab).2]
      exact pfApplyPairs_normal hnd hlen hmem rest h

/-- Decrypting pair by pair undoes encrypting pair by pair on digraph-normal
texts. -/
theorem pfApplyPairs_inv {grid : List (Fin 25)} (hnd : grid.Nodup)
    (hlen : grid.length = 25) (hmem : ∀ x, x ∈ grid) :
    ∀ u : List (Fin 25), isDigraphNormal u = true →
      pfApplyPairs grid CipherMode.Decrypt (pfApplyPairs grid CipherMode.Encrypt u) = u
  | [], _ => rfl
  | [_], h => by simp [isDigraphNormal] at h
  | a :: b :: rest, h => by
    rw [isDigraphNormal] at h
    split at h
    · exact absurd h (by simp)
    · rename_i hab
      have hp := pfPair_inv hnd hlen hmem hab
      rw [pfApplyPairs, pfApplyPairs, pfApplyPairs_inv hnd hlen hmem rest h]
      have e1 : (pfPair grid CipherMode.Decrypt (pfPair grid CipherMode.Encrypt a b).1
          (pfPair grid CipherMode.Encrypt a b).2).1 = a := by rw [hp.1]
      have e2 : (pfPair grid CipherMode.Decrypt (pfPair grid CipherMode.Encrypt a b).1
          (pfPair grid CipherMode.Encrypt a b).2).2 = b := by rw [hp.1]
      rw [e1, e2]

/-- Playfair round trip on texts without J that are already in digraph normal
form once moved to the 25-letter alphabet. -/
theorem playfair_roundtrip (key : List Letter) (t : List Letter)
    (hJ : ∀ c ∈ t, c.val ≠ 9)
    (hnorm : isDigraphNormal (t.map toGrid) = true) :
    playfairTransform key CipherMode.Decrypt (playfairTransform key CipherMode.Encrypt t) = t := by
  have hnd := pfGrid_nodup key
  have hlen := pfGrid_length key
  have hmem := pfGrid_mem key
  rw [playfairTransform, playfairTransform]
  rw [pfPrep_fixed (t.map toGrid) hnorm]
  have h2 : isDigraphNormal (pfApplyPairs (pfGrid key) CipherMode.Encrypt (t.map toGrid)) = true :=
    pfApplyPairs_normal hnd hlen hmem (t.map toGrid) hnorm
  have h3 : ((pfApplyPairs (pfGrid key) CipherMode.Encrypt (t.map toGrid)).map fromGrid).map toGrid
      = pfApplyPairs (pfGrid key) CipherMode.Encrypt (t.map toGrid) := by
    rw [List.map_map]
    have h5 : ∀ x ∈ pfApplyPairs (pfGrid key) CipherMode.Encrypt (t.map toGrid),
        (toGrid ∘ fromGrid) x = id x := fun x _ => toGrid_fromGrid x
    rw [List.map_congr_left h5, List.map_id]
  rw [h3, pfPrep_fixed _ h2, pfApplyPairs_inv hnd hlen hmem (t.map toGrid) hnorm]
  rw [List.map_map]
  have h4 : ∀ c ∈ t, (fromGrid ∘ toGrid) c = id c := by
    intro c hc
    simp [Function.comp, fromGrid_toGrid c (hJ c hc)]
  rw [List.map_congr_left h4, List.map_id]

/-- Vigenere decryption undoes encryption from any starting key index. -/
theorem vigenereGo_inv (key : List (Fin 26)) :
    ∀ (i : Nat) (t : List Letter),
      vigenereGo key CipherMode.Decrypt i (vigenereGo key CipherMode.Encrypt i t) = t
  | _, [] => rfl
  | i, c :: cs => by
    rw [vigenereGo, vigenereGo, caesarShift_inv, vigenereGo_inv key (i + 1) cs]

/-- Caesar decryption undoes encryption for every key and text. -/
theorem caesarTransform_inv (k : Fin 26) (t : List Letter) :
    caesarTransform k CipherMode.Decrypt (caesarTransform k CipherMode.Encrypt t) = t := by
  rw [caesarTransform, caesarTransform, List.map_map]
  have h : ∀ c ∈ t, (caesarShift CipherMode.Decrypt k ∘ caesarShift CipherMode.Encrypt k) c
      = id c := by
    intro c _
    simp [Function.comp, caesarShift_inv]
  rw [List.map_congr_left h, List.map_id]

/-- Claim C5 counterexample: with the (valid) empty Playfair key, decrypting
the encryption of the single letter A returns AX, not A: the digraph filler
added by preprocessing survives the round trip, so the round-trip claim is
false for Playfair as stated. -/
theorem c5_playfair_round_trip_fails :
    makeCipher CipherType.Playfair (RawKey.playfairK [])
      = Except.ok (CipherInstance.playfair [])
    ∧ applyCipherInstance (CipherInstance.playfair []) CipherMode.Decrypt
        (applyCipherInstance (CipherInstance.playfair []) CipherMode.Encrypt [0]) = [0, 23]
    ∧ ([0, 23] : List Letter) ≠ [0] := by
  refine ⟨rfl, by decide, by decide⟩

/-- Claim C5 (amended): for every cipher kind, every key accepted by the
factory and every text over the kind's supported alphabet, decrypting the
encryption returns the original text, provided that for Playfair the text is
already in digraph normal form (even length, no digraph of two equal
letters) over the 25-letter alphabet. -/
theorem c5_round_trip_amended (ty : CipherType) (key : RawKey) (c : CipherInstance)
    (hmk : makeCipher ty key = Except.ok c) (t : List Letter)
    (hsup : supportedText ty t = true)
    (hnorm : ty = CipherType.Playfair → isDigraphNormal (t.map toGrid) = true) :
    applyCipherInstance c CipherMode.Decrypt (applyCipherInstance c CipherMode.Encrypt t) = t := by
  cases ty with
  | Caesar =>
    cases key with
    | caesarK n =>
      rw [makeCipher] at hmk
      split at hmk
      · cases hmk
        exact caesarTransform_inv _ t
      · exact absurd hmk (by simp)
    | vigenereK ks => exact absurd hmk (by simp [makeCipher])
    | playfairK ks => exact absurd hmk (by simp [makeCipher])
  | Vigenere =>
    cases key with
    | caesarK n => exact absurd hmk (by simp [makeCipher])
    | vigenereK ks =>
      rw [makeCipher] at hmk
      split at hmk
      · exact absurd hmk (by simp)
      · cases hmk
        exact vigenereGo_inv ks 0 t
    | playfairK ks => exact absurd hmk (by simp [makeCipher])
  | Playfair =>
    cases key with
    | caesarK n => exact absurd hmk (by simp [makeCipher])
    | vigenereK ks => exact absurd hmk (by simp [makeCipher])
    | playfairK ks =>
      rw [makeCipher] at hmk
      cases hmk
      have hJ : ∀ x ∈ t, x.val ≠ 9 := by
        rw [supportedText] at hsup
        intro x hx
        have := List.all_eq_true.mp hsup x hx
        simpa using this
      exact playfair_roundtrip ks t hJ (hnorm rfl)

/-- Claim C5 witness: the amended round trip at the empty Playfair key on the
two-letter text AB, which is digraph normal and J-free. -/
theorem c5_round_trip_witness :
    applyCipherInstance (CipherInstance.playfair []) CipherMode.Decrypt
      (applyCipherInstance (CipherInstance.playfair []) CipherMode.Encrypt [0, 1]) = [0, 1] :=
  c5_round_trip_amended CipherType.Playfair (RawKey.playfairK [])
    (CipherInstance.playfair []) rfl [0, 1] (by decide) (fun _ => by decide)
